import Mathlib

/-!
Verification of the `optimaladj` causal-graph library.

The repository implements, on top of a directed-graph library, the search for
optimal covariate adjustment sets: `ancestors_all`, `backdoor_graph`,
`causal_vertices`, `forbidden`, `ignore`, `unblocked`, `build_H0`, `build_H1`,
`isInMinimum`, and the three `optimal_*_adj_set` methods.

We embed the code shallowly.  A graph is a node list plus an edge list, read
through membership (the graph library stores nodes and adjacency in
insertion-ordered dictionaries; the lists model that order, and all adjacency
queries go through membership, so a duplicated edge entry is harmless).
Values that the Python code keeps in `set` objects become `Finset String`.
Python exceptions become an explicit error type: the methods that can raise
return `Except`.  The semantics of the graph-library primitives used by the
code (ancestor/descendant reachability, simple-path enumeration, moralization,
node boundary, connected components, minimum node cuts) are embedded as
executable definitions over this representation.
-/

namespace Optimaladj

/-- A Python exception: `keyError` models `KeyError` (set removal of an absent
element, component lookup of an absent node), `nxError` models the graph
library's error exceptions (absent node, removal of an absent edge, no path
for the disjoint-path enumeration). -/
inductive PyErr where
  | keyError : PyErr
  | nxError : PyErr
  deriving DecidableEq, Repr

/-- Result of an `optimal_*_adj_set` call: a returned set, a returned plain
string (the code returns its condition message as a normal value), or a raised
exception. -/
inductive AdjResult where
  | ok : Finset String → AdjResult
  | msg : String → AdjResult
  | err : PyErr → AdjResult
  deriving DecidableEq

instance instDecEqExcept {ε α : Type} [DecidableEq ε] [DecidableEq α] :
    DecidableEq (Except ε α)
  | .error a, .error b => decidable_of_iff (a = b) (by simp)
  | .error _, .ok _ => isFalse (fun h => Except.noConfusion h)
  | .ok _, .error _ => isFalse (fun h => Except.noConfusion h)
  | .ok a, .ok b => decidable_of_iff (a = b) (by simp)

/-- A directed graph (`nx.DiGraph`): node list and directed edge list. -/
structure DiGraph where
  nodes : List String
  edges : List (String × String)
  deriving DecidableEq

/-- An undirected graph (`nx.Graph`): node list and edge list, adjacency read
symmetrically. -/
structure UGraph where
  nodes : List String
  edges : List (String × String)
  deriving DecidableEq

/-- Append a node if it is not already present. -/
def addNode (l : List String) (x : String) : List String :=
  if x ∈ l then l else l ++ [x]

/-- Undirected adjacency: either orientation of the pair is stored. -/
def UGraph.adj (H : UGraph) (a b : String) : Bool :=
  decide ((a, b) ∈ H.edges) || decide ((b, a) ∈ H.edges)

/-- `nx.Graph.add_edge`: inserts missing endpoints and records the edge.  The
edge entry may duplicate an existing one; adjacency is read through
membership, so this is immaterial. -/
def addEdgeU (H : UGraph) (a b : String) : UGraph :=
  ⟨addNode (addNode H.nodes a) b, H.edges ++ [(a, b)]⟩

/-- Induced undirected subgraph on a node set (`H.subgraph`). -/
def subgraphU (H : UGraph) (S : Finset String) : UGraph :=
  let ns := H.nodes.filter (fun x => decide (x ∈ S))
  ⟨ns, H.edges.filter (fun e => decide (e.1 ∈ ns) && decide (e.2 ∈ ns))⟩

/-- Induced directed subgraph on a node set (`G.subgraph`). -/
def subgraphD (G : DiGraph) (S : Finset String) : DiGraph :=
  let ns := G.nodes.filter (fun x => decide (x ∈ S))
  ⟨ns, G.edges.filter (fun e => decide (e.1 ∈ ns) && decide (e.2 ∈ ns))⟩

/-- One step of directed reachability: add every node with an in-edge from the
current set. -/
def dStep (G : DiGraph) (S : Finset String) : Finset String :=
  S ∪ (G.nodes.filter (fun u => decide (∃ w ∈ S, (w, u) ∈ G.edges))).toFinset

/-- Iterated directed reachability. -/
def dReach (G : DiGraph) : Nat → Finset String → Finset String
  | 0, S => S
  | n + 1, S => dReach G n (dStep G S)

/-- Strict descendants of `v`: nodes reachable from `v`, minus `v`.  Iterating
`|V|` steps saturates reachability (`nx.descendants`). -/
def descSet (G : DiGraph) (v : String) : Finset String :=
  (dReach G G.nodes.length {v}).erase v

/-- The graph with every edge reversed. -/
def reverseD (G : DiGraph) : DiGraph :=
  ⟨G.nodes, G.edges.map Prod.swap⟩

/-- Strict ancestors of `v` (`nx.ancestors`): descendants in the reversed
graph. -/
def ancSet (G : DiGraph) (v : String) : Finset String :=
  descSet (reverseD G) v

/-- `nx.descendants` raises on a node absent from the graph. -/
def nxDescendants (G : DiGraph) (v : String) : Except PyErr (Finset String) :=
  if v ∈ G.nodes then .ok (descSet G v) else .error .nxError

/-- `nx.ancestors` raises on a node absent from the graph. -/
def nxAncestors (G : DiGraph) (v : String) : Except PyErr (Finset String) :=
  if v ∈ G.nodes then .ok (ancSet G v) else .error .nxError

/-- Depth-first enumeration of simple paths from a node to `tgt`, over a
neighbor function; `vis` holds already-visited nodes, fuel bounds the depth. -/
def pathsDFS (adjList : String → List String) :
    Nat → String → String → List String → List (List String)
  | 0, u, tgt, _ => if u = tgt then [[u]] else []
  | fuel + 1, u, tgt, vis =>
    if u = tgt then [[u]]
    else
      ((adjList u).filter (fun w => !(vis.contains w))).flatMap
        (fun w => (pathsDFS adjList fuel w tgt (w :: vis)).map (List.cons u))

/-- Out-neighbors of `v`, in node-list order. -/
def DiGraph.succList (G : DiGraph) (v : String) : List String :=
  G.nodes.filter (fun u => decide ((v, u) ∈ G.edges))

/-- `nx.all_simple_paths` on a directed graph: all simple directed paths from
`s` to `t`, as node lists. -/
def allSimplePaths (G : DiGraph) (s t : String) : List (List String) :=
  pathsDFS G.succList G.nodes.length s t [s]

/-- Neighbors of `v` in an undirected graph, in node-list order. -/
def UGraph.adjListU (H : UGraph) (v : String) : List String :=
  H.nodes.filter (fun u => H.adj v u)

/-- `nx.all_simple_paths` on an undirected graph. -/
def allSimplePathsU (H : UGraph) (s t : String) : List (List String) :=
  pathsDFS H.adjListU H.nodes.length s t [s]

/-- The unordered pairs of a list, each taken once: element `i` with every
later element `j > i`. -/
def pairsUpper : List String → List (String × String)
  | [] => []
  | x :: r => (r.map (fun y => (x, y))) ++ pairsUpper r

/-- Adjacency within a plain edge list, read symmetrically. -/
def adjL (E : List (String × String)) (a b : String) : Bool :=
  decide ((a, b) ∈ E) || decide ((b, a) ∈ E)

/-- `nx.moral_graph`: drop edge directions and connect every pair of distinct
co-parents of a common child (adding a pair already adjacent is a no-op). -/
def moral_graph (G : DiGraph) : UGraph :=
  ⟨G.nodes,
    G.edges ++
      (pairsUpper G.nodes).filter
        (fun pq => decide (pq.1 ≠ pq.2) &&
          decide (∃ c ∈ G.nodes, (pq.1, c) ∈ G.edges ∧ (pq.2, c) ∈ G.edges) &&
          !(adjL G.edges pq.1 pq.2))⟩

/-- Neighbors of `v` as a set. -/
def neighborsU (H : UGraph) (v : String) : Finset String :=
  (H.nodes.filter (fun u => H.adj v u)).toFinset

/-- `nx.node_boundary`: nodes outside `nb` (restricted to graph nodes) adjacent
to a member of `nb`. -/
def nodeBoundary (H : UGraph) (nb : Finset String) : Finset String :=
  let ns1 := nb ∩ H.nodes.toFinset
  ns1.biUnion (neighborsU H) \ ns1

/-- The set of single-character strings obtained by iterating a Python string;
`set.union(s)` and comprehensions over a string produce exactly this. -/
def strElems (s : String) : Finset String :=
  (s.data.map Char.toString).toFinset

/-- `nx.node_boundary(H, s)` where `s` is a raw string: Python iterates the
string, so the boundary is taken of the set of its characters. -/
def nodeBoundaryStr (H : UGraph) (s : String) : Finset String :=
  nodeBoundary H (strElems s)

/-- One step of undirected reachability. -/
def uStep (H : UGraph) (S : Finset String) : Finset String :=
  S ∪ (H.nodes.filter (fun u => decide (∃ w ∈ S, H.adj w u = true))).toFinset

/-- Iterated undirected reachability. -/
def ureach (H : UGraph) : Nat → Finset String → Finset String
  | 0, S => S
  | n + 1, S => ureach H n (uStep H S)

/-- Connected component of `v` (`nx.node_connected_component` on a graph
containing `v`): `|V|` steps saturate reachability. -/
def compU (H : UGraph) (v : String) : Finset String :=
  ureach H H.nodes.length {v}

/-- Whether `b` lies in the connected component of `a`. -/
def connectedB (H : UGraph) (a b : String) : Bool :=
  decide (b ∈ compU H a)

/-- All vertex cuts separating `s` and `t`: subsets of the other nodes whose
removal disconnects `s` from `t`. -/
def cutSets (H : UGraph) (s t : String) : Finset (Finset String) :=
  (H.nodes.toFinset \ {s, t}).powerset.filter
    (fun S => connectedB (subgraphU H (H.nodes.toFinset \ S)) s t = false)

/-- `len(nx.minimum_node_cut(H, s, t))`: the size of a minimum vertex cut.
When `s` and `t` are adjacent, the library's `minimum_st_node_cut` returns
the empty set early (size 0): no vertex cut can separate adjacent nodes.  It
fails when an endpoint is absent, the endpoints coincide, or no cut exists
(never the case for non-adjacent endpoints present in the graph). -/
def minimum_node_cut_size (H : UGraph) (s t : String) : Except PyErr Nat :=
  if s ∈ H.nodes ∧ t ∈ H.nodes ∧ s ≠ t then
    if H.adj s t = true then .ok 0
    else
      if h : (cutSets H s t).Nonempty then
        .ok (((cutSets H s t).image Finset.card).min' (h.image Finset.card))
      else .error .nxError
  else .error .nxError

/-- Greedy selection of a maximal internally-disjoint subfamily of a path
list; `used` accumulates the interior nodes of the selected paths. -/
def greedyDisjoint (s t : String) : List (List String) → Finset String → List (List String)
  | [], _ => []
  | p :: rest, used =>
    let inter := p.toFinset \ {s, t}
    if inter ∩ used = ∅ then p :: greedyDisjoint s t rest (used ∪ inter)
    else greedyDisjoint s t rest used

/-- Modelled from the spec: the external graph-library primitive for "maximal
node-disjoint path enumeration" (`nx.node_disjoint_paths`), whose algorithm is
not part of this repository.  It returns a maximal family of internally
node-disjoint simple paths from `s` to `t` (here chosen greedily from the
simple-path enumeration) and fails when an endpoint is absent, the endpoints
coincide, or no path exists. -/
def node_disjoint_paths (H : UGraph) (s t : String) : Except PyErr (List (List String)) :=
  if s ∈ H.nodes ∧ t ∈ H.nodes ∧ s ≠ t then
    let sel := greedyDisjoint s t (allSimplePathsU H s t) ∅
    if sel = [] then .error .nxError else .ok sel
  else .error .nxError

/-- Python's `set.remove`: raises `KeyError` when the element is absent. -/
def pyRemove (S : Finset String) (x : String) : Except PyErr (Finset String) :=
  if x ∈ S then .ok (S.erase x) else .error .keyError

/-- Accumulation loop of `ancestors_all`: union the strict ancestors of each
listed node into `acc`. -/
def ancestors_all_aux (G : DiGraph) : List String → Finset String → Except PyErr (Finset String)
  | [], acc => .ok acc
  | n :: rest, acc =>
    match nxAncestors G n with
    | .error e => .error e
    | .ok a => ancestors_all_aux G rest (acc ∪ a)

/-- `CausalGraph.ancestors_all`: union of each node's strict ancestors, then
union with the nodes themselves. -/
def ancestors_all (G : DiGraph) (ns : List String) : Except PyErr (Finset String) :=
  match ancestors_all_aux G ns ∅ with
  | .error e => .error e
  | .ok acc => .ok (acc ∪ ns.toFinset)

/-- `CausalGraph.backdoor_graph`: for every simple directed path from `t` to
`y`, remove its first edge from a copy of the graph.  Each first edge is an
edge of the graph, and `remove_edge` raises once an edge is removed twice, so
the sequential removal loop succeeds exactly when the first edges of the
enumerated paths are pairwise distinct, and then deletes that edge set. -/
def backdoor_graph (G : DiGraph) (t y : String) : Except PyErr DiGraph :=
  let fes := (allSimplePaths G t y).filterMap
    (fun p => match p with | a :: b :: _ => some (a, b) | _ => none)
  if fes.Nodup then .ok ⟨G.nodes, G.edges.filter (fun e => decide (e ∉ fes))⟩
  else .error .nxError

/-- `CausalGraph.causal_vertices`: union of the node sets of all simple
directed paths from `t` to `y`, then `remove(t)` — which raises `KeyError`
when no such path exists. -/
def causal_vertices (G : DiGraph) (t y : String) : Except PyErr (Finset String) :=
  if t ∈ G.nodes ∧ y ∈ G.nodes then
    let cv := (allSimplePaths G t y).foldl (fun acc p => acc ∪ p.toFinset) (∅ : Finset String)
    if t ∈ cv then .ok (cv.erase t) else .error .keyError
  else .error .nxError

/-- `CausalGraph.forbidden`: for each causal vertex `v`, union in
`nx.descendants(G, v).union(v)` — `v` is a string, so its characters are
unioned — and finally `.union(treatment)`, likewise character-wise.  The
accumulation over the set is summarized order-independently; it raises exactly
when some causal vertex is absent from the graph (never the case, as causal
vertices come from paths in the graph). -/
def forbidden (G : DiGraph) (t y : String) : Except PyErr (Finset String) :=
  match causal_vertices G t y with
  | .error e => .error e
  | .ok cv =>
    if ∀ v ∈ cv, v ∈ G.nodes then
      .ok (cv.biUnion (fun v => descSet G v ∪ strElems v) ∪ strElems t)
    else .error .nxError

/-- `CausalGraph.ignore`: ancestral closure of `L ∪ {t, y}` with `t` and `y`
removed (Python `set.remove`), intersected with the union of the nodes outside
`N` and the forbidden set. -/
def ignore (G : DiGraph) (t y : String) (L N : List String) : Except PyErr (Finset String) :=
  match ancestors_all G (L ++ [t, y]) with
  | .error e => .error e
  | .ok a =>
    match pyRemove a t with
    | .error e => .error e
    | .ok s1a =>
      match pyRemove s1a y with
      | .error e => .error e
      | .ok s1 =>
        match forbidden G t y with
        | .error e => .error e
        | .ok f => .ok (s1 ∩ ((G.nodes.toFinset \ N.toFinset) ∪ f))

/-- `CausalGraph.unblocked`: remove `Z`, take the connected component of `t`
(raising `KeyError` when `t` was removed), and return its node boundary in
`H`. -/
def unblocked (H : UGraph) (t : String) (Z : Finset String) : Except PyErr (Finset String) :=
  let G2 := subgraphU H (H.nodes.toFinset \ Z)
  if t ∈ G2.nodes then .ok (nodeBoundary H (compU G2 t)) else .error .keyError

/-- `CausalGraph.build_H0`: moralized back-door graph of the restriction to the
ancestral closure of `L ∪ {t, y}`. -/
def build_H0 (G : DiGraph) (t y : String) (L : List String) : Except PyErr UGraph :=
  match ancestors_all G (L ++ [t, y]) with
  | .error e => .error e
  | .ok anc =>
    match backdoor_graph (subgraphD G anc) t y with
    | .error e => .error e
    | .ok G3 => .ok (moral_graph G3)

/-- The edges added by the pair loop of `build_H1`: vertex pairs `(i, j)` with
`j` after `i` in the retained vertex list, joined in H0 by a simple path whose
vertices all lie in the ignore set apart from the endpoints (adding a pair
already adjacent is a no-op). -/
def shortcutEdges (H0 : UGraph) (ign : Finset String) (H1a : UGraph) :
    List (String × String) :=
  (pairsUpper H1a.nodes).filter
    (fun uv =>
      decide (∃ p ∈ allSimplePathsU H0 uv.1 uv.2, p.toFinset ⊆ ign ∪ {uv.1, uv.2}) &&
      !(adjL H1a.edges uv.1 uv.2))

/-- `CausalGraph.build_H1`: remove the ignore set from H0, short-circuit pairs
connected through ignored vertices, then force edges `t–l` and `l–y` for every
`l ∈ L`. -/
def build_H1 (G : DiGraph) (t y : String) (L N : List String) : Except PyErr UGraph :=
  match build_H0 G t y L with
  | .error e => .error e
  | .ok H0 =>
    match ignore G t y L N with
    | .error e => .error e
    | .ok ign =>
      let H1a := subgraphU H0 (H0.nodes.toFinset \ ign)
      let H1b : UGraph := ⟨H1a.nodes, H1a.edges ++ shortcutEdges H0 ign H1a⟩
      .ok (L.foldl (fun H l => addEdgeU (addEdgeU H t l) l y) H1b)

/-- The string the code returns when the optimal-set precondition fails. -/
def conditionMessage : String :=
  "Conditions to guarantee the existence of an optimal adjustment set are not satisfied"

/-- `CausalGraph.optimal_adj_set`: build H1, then test the guard
`N == self.nodes() or set(N).issubset(self.ancestors_all(L + [t, y]))`.
The first disjunct compares the list `N` with a node view: in Python a list
never compares equal to a `NodeView` (the abstract `Set.__eq__` yields
`NotImplemented` for a non-set, as does the reflected list comparison), so
that disjunct is constantly false and the guard reduces to the containment
of `N` in the ancestral closure, which the short-circuiting `or` always
evaluates.  If the guard holds, return the node boundary of the raw outcome
string in H1; otherwise return the condition message as a value. -/
def optimal_adj_set (G : DiGraph) (t y : String) (L N : List String) : AdjResult :=
  match build_H1 G t y L N with
  | .error e => .err e
  | .ok H1 =>
    match ancestors_all G (L ++ [t, y]) with
    | .error e => .err e
    | .ok anc =>
      if N.toFinset ⊆ anc then .ok (nodeBoundaryStr H1 y)
      else .msg conditionMessage

/-- `CausalGraph.optimal_minimal_adj_set`: `unblocked(H1, t, ∂{y})`. -/
def optimal_minimal_adj_set (G : DiGraph) (t y : String) (L N : List String) : AdjResult :=
  match build_H1 G t y L N with
  | .error e => .err e
  | .ok H1 =>
    match unblocked H1 t (nodeBoundary H1 {y}) with
    | .error e => .err e
    | .ok s => .ok s

/-- The modified graph of `isInMinimum`: a copy of `H` with the edges
`treatment–node` and `outcome–node` added. -/
def H_mod (H : UGraph) (t y v : String) : UGraph :=
  addEdgeU (addEdgeU H t v) y v

/-- `CausalGraph.isInMinimum`: compare the minimum cut size of `H` with that of
`H_mod`, the copy of `H` with edges `t–v` and `y–v` added. -/
def isInMinimum (H : UGraph) (t y v : String) : Except PyErr Bool :=
  match minimum_node_cut_size H t y with
  | .error e => .error e
  | .ok m1 =>
    match minimum_node_cut_size (H_mod H t y v) t y with
    | .error e => .error e
    | .ok m2 => .ok (decide (m1 = m2))

/-- Inner loop of `optimal_minimum_adj_set`: scan a path, skipping the outcome,
for the first node passing `isInMinimum`. -/
def scanPath (H1 : UGraph) (t y : String) : List String → Except PyErr (Option String)
  | [] => .ok none
  | n :: rest =>
    if n = y then scanPath H1 t y rest
    else
      match isInMinimum H1 t y n with
      | .error e => .error e
      | .ok true => .ok (some n)
      | .ok false => scanPath H1 t y rest

/-- `CausalGraph.optimal_minimum_adj_set`: if `y` is outside `t`'s component of
H1 return `∅`; otherwise, over a maximal family of node-disjoint `y`→`t`
paths, collect the first minimum-cut member of each path. -/
def optimal_minimum_adj_set (G : DiGraph) (t y : String) (L N : List String) : AdjResult :=
  match build_H1 G t y L N with
  | .error e => .err e
  | .ok H1 =>
    if t ∈ H1.nodes then
      if y ∈ compU H1 t then
        match node_disjoint_paths H1 y t with
        | .error e => .err e
        | .ok paths =>
          match paths.foldlM
              (fun acc p =>
                (match scanPath H1 t y p with
                 | .error e => .error e
                 | .ok (some n) => .ok (insert n acc)
                 | .ok none => .ok acc : Except PyErr (Finset String)))
              (∅ : Finset String) with
          | .error e => .err e
          | .ok s => .ok s
      else .ok ∅
    else .err .keyError

/-! ### Spec-modelled back-door validity

The code raises no `NoAdjException`; to state the claims that mention
non-existence or existence of a valid adjustment set, the back-door criterion
itself is modelled from the spec (§4.3, §7, glossary). -/

/-- The skeleton of a directed graph: same edges, read undirected. -/
def skeleton (G : DiGraph) : UGraph := ⟨G.nodes, G.edges⟩

/-- Modelled from the spec: the set of vertices on causal paths, "union of all
nodes on any simple directed path treatment→outcome ... minus treatment
itself", as whole node identifiers. -/
def causalVertsSpec (G : DiGraph) (t y : String) : Finset String :=
  ((allSimplePaths G t y).foldl (fun acc p => acc ∪ p.toFinset) (∅ : Finset String)).erase t

/-- Modelled from the spec: the forbidden set, "union, over every causal
vertex, of that vertex's strict descendants and itself, further unioned with
the treatment", as whole node identifiers. -/
def forbiddenSpec (G : DiGraph) (t y : String) : Finset String :=
  (causalVertsSpec G t y).biUnion (fun v => insert v (descSet G v)) ∪ {t}

/-- Modelled from the spec: whether a skeleton path is blocked by conditioning
set `Z` under d-separation — some non-collider on the path is in `Z`, or some
collider has no descendant (itself included) in `Z`. -/
def blockedB (G : DiGraph) (Z : Finset String) : List String → Bool
  | a :: b :: c :: rest =>
    (if (a, b) ∈ G.edges ∧ (c, b) ∈ G.edges
     then decide (∀ d ∈ insert b (descSet G b), d ∉ Z)
     else decide (b ∈ Z)) || blockedB G Z (b :: c :: rest)
  | _ => false

/-- Modelled from the spec: a skeleton path out of the treatment is a back-door
path when its first edge points into the treatment. -/
def isBackdoorB (G : DiGraph) (t : String) : List String → Bool
  | a :: b :: _ => decide (a = t) && decide ((b, a) ∈ G.edges)
  | _ => false

/-- Modelled from the spec: `Z` is a valid adjustment set for
`(t, y, L, N)` under the back-door criterion — `Z` lies in the eligible
universe `N`, contains the forced covariates `L`, avoids the forbidden set and
the two endpoints, and blocks every back-door path. -/
def validAdjSet (G : DiGraph) (t y : String) (L N : List String) (Z : Finset String) : Bool :=
  decide (Z ⊆ N.toFinset) && decide (L.toFinset ⊆ Z) &&
  decide (∀ v ∈ Z, v ∉ forbiddenSpec G t y) &&
  decide (t ∉ Z) && decide (y ∉ Z) &&
  (allSimplePathsU (skeleton G) t y).all (fun p => !(isBackdoorB G t p) || blockedB G Z p)

/-! ### Concrete graphs used to settle the claims -/

/-- Nodes `A, T, Y` with the single edge `T→Y`; `A` is isolated, so
`N = [A]` is neither the full node set nor inside the ancestral closure. -/
def Gcond : DiGraph := ⟨["A", "T", "Y"], [("T", "Y")]⟩

/-- The confounded triangle: `C→T`, `C→Y`, `T→Y`. -/
def Gconf : DiGraph := ⟨["C", "T", "Y"], [("C", "T"), ("C", "Y"), ("T", "Y")]⟩

/-- Two nodes `T, Y` with no edges: no directed path between them. -/
def Gnopath : DiGraph := ⟨["T", "Y"], []⟩

/-- The confounded triangle on multi-character node names: `C1→T1`, `C1→Y1`,
`T1→Y1`. -/
def Gmulti : DiGraph := ⟨["C1", "T1", "Y1"], [("C1", "T1"), ("C1", "Y1"), ("T1", "Y1")]⟩

/-- The H1 graph produced for `Gconf` with `t = T`, `y = Y`, `L = []`,
`N = []`. -/
def H1conf : UGraph := ⟨["T", "Y"], [("T", "Y")]⟩

/-- The H1 graph produced for `Gmulti` with `t = T1`, `y = Y1`, `L = []`,
`N = [C1, T1, Y1]`. -/
def H1multi : UGraph := ⟨["C1", "T1", "Y1"], [("C1", "T1"), ("C1", "Y1")]⟩

/-- A three-node path `a–b–c`: `b` is the unique minimum `a`–`c` cut. -/
def Hpath : UGraph := ⟨["a", "b", "c"], [("a", "b"), ("b", "c")]⟩

end Optimaladj

namespace Optimaladj

/-! ### Reachability and cut lemmas -/

theorem UGraph.ext' {a b : UGraph} (h1 : a.nodes = b.nodes) (h2 : a.edges = b.edges) :
    a = b := by
  cases a; cases b; simp_all

theorem adj_true_iff (H : UGraph) (a b : String) :
    H.adj a b = true ↔ (a, b) ∈ H.edges ∨ (b, a) ∈ H.edges := by
  simp [UGraph.adj]

theorem adj_false_iff (H : UGraph) (a b : String) :
    H.adj a b = false ↔ (a, b) ∉ H.edges ∧ (b, a) ∉ H.edges := by
  simp [UGraph.adj, not_or]

theorem mem_uStep (H : UGraph) (S : Finset String) (x : String) :
    x ∈ uStep H S ↔ x ∈ S ∨ (x ∈ H.nodes ∧ ∃ w ∈ S, H.adj w x = true) := by
  simp [uStep, List.mem_filter]

theorem subset_uStep (H : UGraph) (S : Finset String) : S ⊆ uStep H S :=
  Finset.subset_union_left

theorem uStep_mono {H : UGraph} {S T : Finset String} (h : S ⊆ T) :
    uStep H S ⊆ uStep H T := by
  intro x hx
  rcases (mem_uStep H S x).mp hx with hxS | ⟨hxn, w, hw, ha⟩
  · exact subset_uStep H T (h hxS)
  · exact (mem_uStep H T x).mpr (.inr ⟨hxn, w, h hw, ha⟩)

theorem ureach_mono {H : UGraph} :
    ∀ (n : Nat) {S T : Finset String}, S ⊆ T → ureach H n S ⊆ ureach H n T := by
  intro n
  induction n with
  | zero => intro S T h; exact h
  | succ n ih =>
    intro S T h
    show ureach H n (uStep H S) ⊆ ureach H n (uStep H T)
    exact ih (uStep_mono h)

theorem ureach_succ (H : UGraph) (n : Nat) (S : Finset String) :
    ureach H (n + 1) S = uStep H (ureach H n S) := by
  induction n generalizing S with
  | zero => rfl
  | succ n ih =>
    show ureach H (n + 1) (uStep H S) = _
    rw [ih]
    rfl

theorem ureach_le (H : UGraph) {m n : Nat} (h : m ≤ n) (S : Finset String) :
    ureach H m S ⊆ ureach H n S := by
  induction h with
  | refl => exact subset_rfl
  | step _ ih =>
    refine ih.trans ?_
    rw [ureach_succ]
    exact subset_uStep H _

theorem mem_uStep_of_adj {H : UGraph} {S : Finset String} {w u : String}
    (hw : w ∈ S) (hu : u ∈ H.nodes) (ha : H.adj w u = true) : u ∈ uStep H S :=
  (mem_uStep H S u).mpr (.inr ⟨hu, w, hw, ha⟩)

theorem mem_subgraphU_nodes (H : UGraph) (S : Finset String) (x : String) :
    x ∈ (subgraphU H S).nodes ↔ x ∈ H.nodes ∧ x ∈ S := by
  simp [subgraphU, List.mem_filter]

theorem subgraphU_adj {H : UGraph} {S : Finset String} {a b : String}
    (h : (subgraphU H S).adj a b = true) : H.adj a b = true := by
  rcases (adj_true_iff _ a b).mp h with h1 | h1
  · exact (adj_true_iff H a b).mpr (.inl (List.mem_filter.mp h1).1)
  · exact (adj_true_iff H a b).mpr (.inr (List.mem_filter.mp h1).1)

theorem subgraphU_adj_of_mem {H : UGraph} {S : Finset String} {a b : String}
    (he : (a, b) ∈ H.edges) (ha : a ∈ (subgraphU H S).nodes)
    (hb : b ∈ (subgraphU H S).nodes) : (subgraphU H S).adj a b = true := by
  refine (adj_true_iff _ a b).mpr (.inl ?_)
  refine List.mem_filter.mpr ⟨he, ?_⟩
  simp only [subgraphU] at ha hb ⊢
  simp [ha, hb]

theorem ureach_singleton_stuck {G2 : UGraph} {s : String}
    (h : ∀ u, u ∈ G2.nodes → G2.adj s u = true → u = s) :
    ∀ (n : Nat) (T : Finset String), T ⊆ {s} → ureach G2 n T ⊆ {s} := by
  intro n
  induction n with
  | zero => intro T hT; exact hT
  | succ n ih =>
    intro T hT
    show ureach G2 n (uStep G2 T) ⊆ {s}
    refine ih _ ?_
    intro x hx
    rcases (mem_uStep G2 T x).mp hx with hxT | ⟨hxn, w, hw, ha⟩
    · exact hT hxT
    · have hws : w = s := Finset.mem_singleton.mp (hT hw)
      subst hws
      exact Finset.mem_singleton.mpr (h x hxn ha)

theorem sdiff_mem_cutSets (H : UGraph) (s t : String)
    (hs : s ∈ H.nodes) (ht : t ∈ H.nodes) (hst : s ≠ t) (hadj : H.adj s t = false) :
    H.nodes.toFinset \ {s, t} ∈ cutSets H s t := by
  unfold cutSets
  refine Finset.mem_filter.mpr ⟨Finset.mem_powerset.mpr (le_refl _), ?_⟩
  have hkey : ∀ u, u ∈ (subgraphU H (H.nodes.toFinset \ (H.nodes.toFinset \ {s, t}))).nodes →
      (subgraphU H (H.nodes.toFinset \ (H.nodes.toFinset \ {s, t}))).adj s u = true → u = s := by
    intro u hu ha
    have hmem := (mem_subgraphU_nodes _ _ u).mp hu
    have hu2 : u ∈ ({s, t} : Finset String) := by
      rcases Finset.mem_sdiff.mp hmem.2 with ⟨hn, hns⟩
      by_contra hc
      exact hns (Finset.mem_sdiff.mpr ⟨hn, hc⟩)
    rcases Finset.mem_insert.mp hu2 with h1 | h1
    · exact h1
    · exfalso
      have hst2 : H.adj s u = true := subgraphU_adj ha
      rw [Finset.mem_singleton.mp h1] at hst2
      rw [hadj] at hst2
      exact Bool.noConfusion hst2
  have hreach := ureach_singleton_stuck hkey
    ((subgraphU H (H.nodes.toFinset \ (H.nodes.toFinset \ {s, t}))).nodes.length) {s}
    (le_refl _)
  simp only [connectedB, decide_eq_false_iff_not]
  intro hmem
  have hts := hreach hmem
  exact hst (Finset.mem_singleton.mp hts).symm

end Optimaladj

namespace Optimaladj

/-! ### Lemmas on the modified graph of `isInMinimum` -/

theorem H_mod_nodes {H : UGraph} {t y v : String}
    (ht : t ∈ H.nodes) (hy : y ∈ H.nodes) (hv : v ∈ H.nodes) :
    (H_mod H t y v).nodes = H.nodes := by
  simp [H_mod, addEdgeU, addNode, ht, hy, hv]

theorem H_mod_edges (H : UGraph) (t y v : String) :
    (H_mod H t y v).edges = H.edges ++ [(t, v), (y, v)] := by
  simp [H_mod, addEdgeU]

theorem H_mod_adj_false {H : UGraph} {t y v : String}
    (hadj : H.adj t y = false) (hty : t ≠ y) (hvt : v ≠ t) (hvy : v ≠ y) :
    (H_mod H t y v).adj t y = false := by
  have h1 := (adj_false_iff H t y).mp hadj
  rw [adj_false_iff, H_mod_edges]
  constructor
  · intro hmem
    rcases List.mem_append.mp hmem with h | h
    · exact h1.1 h
    · rcases List.mem_cons.mp h with h2 | h2
      · exact hvy (congrArg Prod.snd h2).symm
      · have h3 := List.mem_singleton.mp h2
        exact hty (congrArg Prod.fst h3)
  · intro hmem
    rcases List.mem_append.mp hmem with h | h
    · exact h1.2 h
    · rcases List.mem_cons.mp h with h2 | h2
      · exact hty (congrArg Prod.fst h2).symm
      · have h3 := List.mem_singleton.mp h2
        exact hvt (congrArg Prod.snd h3).symm

theorem H_mod_subgraph_eq {H : UGraph} {t y v : String} {X : Finset String}
    (ht : t ∈ H.nodes) (hy : y ∈ H.nodes) (hv : v ∈ H.nodes) (hvX : v ∉ X) :
    subgraphU (H_mod H t y v) X = subgraphU H X := by
  have hn : (H_mod H t y v).nodes = H.nodes := H_mod_nodes ht hy hv
  have hvns : v ∉ H.nodes.filter (fun x => decide (x ∈ X)) := by
    intro hmem
    exact hvX (of_decide_eq_true (List.mem_filter.mp hmem).2)
  apply UGraph.ext'
  · simp [subgraphU, hn]
  · simp only [subgraphU, hn, H_mod_edges]
    rw [List.filter_append]
    have h2 : List.filter
        (fun e => decide (e.1 ∈ H.nodes.filter (fun x => decide (x ∈ X))) &&
          decide (e.2 ∈ H.nodes.filter (fun x => decide (x ∈ X)))) [(t, v), (y, v)] = [] := by
      simp
      exact ⟨fun _ _ _ => hvX, fun _ _ _ => hvX⟩
    rw [h2, List.append_nil]

theorem mem_of_cut_mod {H : UGraph} {t y v : String} {S : Finset String}
    (ht : t ∈ H.nodes) (hy : y ∈ H.nodes) (hv : v ∈ H.nodes)
    (hty : t ≠ y) (hvt : v ≠ t) (hvy : v ≠ y)
    (hS : S ∈ cutSets (H_mod H t y v) t y) : v ∈ S := by
  by_contra hvS
  obtain ⟨hSsub, hconn⟩ := Finset.mem_filter.mp hS
  rw [Finset.mem_powerset] at hSsub
  have hnodes : (H_mod H t y v).nodes = H.nodes := H_mod_nodes ht hy hv
  have htS : t ∉ S := by
    intro hmem
    rcases Finset.mem_sdiff.mp (hSsub hmem) with ⟨_, hns⟩
    exact hns (Finset.mem_insert_self t {y})
  have hyS : y ∉ S := by
    intro hmem
    rcases Finset.mem_sdiff.mp (hSsub hmem) with ⟨_, hns⟩
    exact hns (Finset.mem_insert_of_mem (Finset.mem_singleton_self y))
  set G2 := subgraphU (H_mod H t y v) ((H_mod H t y v).nodes.toFinset \ S) with hG2
  have hmemX : ∀ x, x ∈ H.nodes → x ∉ S → x ∈ G2.nodes := by
    intro x hxn hxS
    refine (mem_subgraphU_nodes _ _ x).mpr ⟨hnodes ▸ hxn, ?_⟩
    refine Finset.mem_sdiff.mpr ⟨?_, hxS⟩
    rw [hnodes]
    exact List.mem_toFinset.mpr hxn
  have htG := hmemX t ht htS
  have hvG := hmemX v hv hvS
  have hyG := hmemX y hy hyS
  have hetv : ((t, v) : String × String) ∈ (H_mod H t y v).edges := by
    rw [H_mod_edges]
    exact List.mem_append.mpr (.inr (List.mem_cons_self _ _))
  have heyv : ((y, v) : String × String) ∈ (H_mod H t y v).edges := by
    rw [H_mod_edges]
    exact List.mem_append.mpr (.inr (List.mem_cons_of_mem _ (List.mem_singleton_self _)))
  have hatv : G2.adj t v = true := subgraphU_adj_of_mem hetv htG hvG
  have hayv : G2.adj y v = true := subgraphU_adj_of_mem heyv hyG hvG
  have havy : G2.adj v y = true := by
    rcases (adj_true_iff G2 y v).mp hayv with h | h
    · exact (adj_true_iff G2 v y).mpr (.inr h)
    · exact (adj_true_iff G2 v y).mpr (.inl h)
  have hstep1 : v ∈ uStep G2 {t} :=
    mem_uStep_of_adj (Finset.mem_singleton_self t) hvG hatv
  have hstep2 : y ∈ uStep G2 (uStep G2 {t}) :=
    mem_uStep_of_adj hstep1 hyG havy
  have hy2 : y ∈ ureach G2 2 {t} := by
    rw [ureach_succ, ureach_succ]
    exact hstep2
  have hsub3 : ({t, y, v} : Finset String) ⊆ G2.nodes.toFinset := by
    intro x hx
    rcases Finset.mem_insert.mp hx with h | h
    · exact h ▸ List.mem_toFinset.mpr htG
    · rcases Finset.mem_insert.mp h with h2 | h2
      · exact h2 ▸ List.mem_toFinset.mpr hyG
      · exact (Finset.mem_singleton.mp h2) ▸ List.mem_toFinset.mpr hvG
  have hcard3 : ({t, y, v} : Finset String).card = 3 :=
    Finset.card_eq_three.mpr ⟨t, y, v, hty, Ne.symm hvt, Ne.symm hvy, rfl⟩
  have hlen : 2 ≤ G2.nodes.length := by
    have hc1 : 3 ≤ G2.nodes.toFinset.card := hcard3 ▸ Finset.card_le_card hsub3
    have hc2 := List.toFinset_card_le G2.nodes
    omega
  have hyc : y ∈ compU G2 t := ureach_le G2 hlen {t} hy2
  simp only [connectedB, decide_eq_false_iff_not] at hconn
  exact hconn hyc

theorem cutSets_mod_eq {H : UGraph} {t y v : String}
    (ht : t ∈ H.nodes) (hy : y ∈ H.nodes) (hv : v ∈ H.nodes)
    (hty : t ≠ y) (hvt : v ≠ t) (hvy : v ≠ y) :
    cutSets (H_mod H t y v) t y = (cutSets H t y).filter (fun S => v ∈ S) := by
  have hnodes : (H_mod H t y v).nodes = H.nodes := H_mod_nodes ht hy hv
  ext S
  simp only [Finset.mem_filter]
  constructor
  · intro hS
    have hvS : v ∈ S := mem_of_cut_mod ht hy hv hty hvt hvy hS
    obtain ⟨hsub, hconn⟩ := Finset.mem_filter.mp hS
    rw [Finset.mem_powerset] at hsub
    have hvX : v ∉ H.nodes.toFinset \ S := fun hmem => (Finset.mem_sdiff.mp hmem).2 hvS
    refine ⟨Finset.mem_filter.mpr ⟨Finset.mem_powerset.mpr ?_, ?_⟩, hvS⟩
    · rw [hnodes] at hsub
      exact hsub
    · rw [hnodes] at hconn
      rw [← H_mod_subgraph_eq ht hy hv hvX]
      exact hconn
  · rintro ⟨hS, hvS⟩
    obtain ⟨hsub, hconn⟩ := Finset.mem_filter.mp hS
    rw [Finset.mem_powerset] at hsub
    have hvX : v ∉ H.nodes.toFinset \ S := fun hmem => (Finset.mem_sdiff.mp hmem).2 hvS
    refine Finset.mem_filter.mpr ⟨Finset.mem_powerset.mpr ?_, ?_⟩
    · rw [hnodes]
      exact hsub
    · rw [hnodes, H_mod_subgraph_eq ht hy hv hvX]
      exact hconn

theorem min'_congr {s1 s2 : Finset Nat} (h : s1 = s2) (h1 : s1.Nonempty) (h2 : s2.Nonempty) :
    s1.min' h1 = s2.min' h2 := by
  subst h
  rfl

theorem isInMinimum_ok {H : UGraph} {t y v : String} {m1 m2 : Nat}
    (e1 : minimum_node_cut_size H t y = .ok m1)
    (e2 : minimum_node_cut_size (H_mod H t y v) t y = .ok m2) :
    isInMinimum H t y v = .ok (decide (m1 = m2)) := by
  unfold isInMinimum
  rw [e1, e2]

end Optimaladj

namespace Optimaladj

/-- C6: for every undirected graph `H`, nodes `t` (treatment) and `y` (outcome)
that are distinct and non-adjacent, and a node `v` distinct from both,
`isInMinimum H t y v` returns true exactly when `v` belongs to some
minimum-size vertex cut separating `t` and `y` in `H` — equivalently, when the
minimum node-cut size of `H` equals that of `H` with edges `t–v` and `y–v`
added. -/
theorem C6_isInMinimum_iff_member_of_minimum_cut (H : UGraph) (t y v : String)
    (ht : t ∈ H.nodes) (hy : y ∈ H.nodes) (hv : v ∈ H.nodes)
    (hty : t ≠ y) (hadj : H.adj t y = false) (hvt : v ≠ t) (hvy : v ≠ y) :
    isInMinimum H t y v = .ok true ↔
      ∃ S ∈ cutSets H t y, v ∈ S ∧ ∀ S2 ∈ cutSets H t y, S.card ≤ S2.card := by
  have hne : (cutSets H t y).Nonempty := ⟨_, sdiff_mem_cutSets H t y ht hy hty hadj⟩
  have hnodes : (H_mod H t y v).nodes = H.nodes := H_mod_nodes ht hy hv
  have hadjm : (H_mod H t y v).adj t y = false := H_mod_adj_false hadj hty hvt hvy
  have htm : t ∈ (H_mod H t y v).nodes := by rw [hnodes]; exact ht
  have hym : y ∈ (H_mod H t y v).nodes := by rw [hnodes]; exact hy
  have hnem : (cutSets (H_mod H t y v) t y).Nonempty :=
    ⟨_, sdiff_mem_cutSets _ t y htm hym hty hadjm⟩
  have e1 : minimum_node_cut_size H t y =
      .ok (((cutSets H t y).image Finset.card).min' (hne.image Finset.card)) := by
    unfold minimum_node_cut_size
    rw [if_pos ⟨ht, hy, hty⟩, if_neg (by simp [hadj]), dif_pos hne]
  have e2 : minimum_node_cut_size (H_mod H t y v) t y =
      .ok (((cutSets (H_mod H t y v) t y).image Finset.card).min'
        (hnem.image Finset.card)) := by
    unfold minimum_node_cut_size
    rw [if_pos ⟨htm, hym, hty⟩, if_neg (by simp [hadjm]), dif_pos hnem]
  rw [isInMinimum_ok e1 e2]
  have hfil : cutSets (H_mod H t y v) t y = (cutSets H t y).filter (fun S => v ∈ S) :=
    cutSets_mod_eq ht hy hv hty hvt hvy
  have hne2 : ((cutSets H t y).filter (fun S => v ∈ S)).Nonempty := by
    rw [← hfil]
    exact hnem
  have hmin2 : ((cutSets (H_mod H t y v) t y).image Finset.card).min'
        (hnem.image Finset.card) =
      (((cutSets H t y).filter (fun S => v ∈ S)).image Finset.card).min'
        (hne2.image Finset.card) :=
    min'_congr (by rw [hfil]) _ _
  rw [hmin2]
  simp only [Except.ok.injEq, decide_eq_true_eq]
  constructor
  · intro heq
    have hm2mem := Finset.min'_mem
      (((cutSets H t y).filter (fun S => v ∈ S)).image Finset.card)
      (hne2.image Finset.card)
    obtain ⟨S2, hS2, hcard⟩ := Finset.mem_image.mp hm2mem
    obtain ⟨hS2F, hvS2⟩ := Finset.mem_filter.mp hS2
    refine ⟨S2, hS2F, hvS2, ?_⟩
    intro S3 hS3
    have h3 := Finset.min'_le ((cutSets H t y).image Finset.card) S3.card
      (Finset.mem_image_of_mem _ hS3)
    omega
  · rintro ⟨S, hSF, hvS, hmin⟩
    have hSF2 : S ∈ (cutSets H t y).filter (fun S2 => v ∈ S2) :=
      Finset.mem_filter.mpr ⟨hSF, hvS⟩
    have hm2S := Finset.min'_le
      (((cutSets H t y).filter (fun S2 => v ∈ S2)).image Finset.card) S.card
      (Finset.mem_image_of_mem _ hSF2)
    have hm2mem := Finset.min'_mem
      (((cutSets H t y).filter (fun S2 => v ∈ S2)).image Finset.card)
      (hne2.image Finset.card)
    obtain ⟨S2, hS2, hcard2⟩ := Finset.mem_image.mp hm2mem
    have hS2F : S2 ∈ cutSets H t y := (Finset.mem_filter.mp hS2).1
    have h12 := Finset.min'_le ((cutSets H t y).image Finset.card) S2.card
      (Finset.mem_image_of_mem _ hS2F)
    have hm1mem := Finset.min'_mem ((cutSets H t y).image Finset.card)
      (hne.image Finset.card)
    obtain ⟨S1, hS1, hcard1⟩ := Finset.mem_image.mp hm1mem
    have hS1min := hmin S1 hS1
    omega

/-- Witness for C6: in the path `a–b–c`, the middle node `b` is a member of a
minimum `a`–`c` vertex cut, and `isInMinimum` returns true on it. -/
theorem C6_witness :
    "a" ∈ Hpath.nodes ∧ Hpath.adj "a" "c" = false ∧
      isInMinimum Hpath "a" "c" "b" = .ok true :=
  ⟨by decide, by decide,
    (C6_isInMinimum_iff_member_of_minimum_cut Hpath "a" "c" "b" (by decide) (by decide)
        (by decide) (by decide) (by decide) (by decide) (by decide)).mpr
      ⟨{"b"}, by decide, by decide, by decide⟩⟩

end Optimaladj

namespace Optimaladj

/-! ### Lemmas on `ancestors_all`, `ignore` and `build_H1` -/

theorem nxAncestors_pos {G : DiGraph} {m : String} (hm : m ∈ G.nodes) :
    nxAncestors G m = .ok (ancSet G m) := by
  unfold nxAncestors
  rw [if_pos hm]

theorem ancestors_all_aux_ok_nodes {G : DiGraph} :
    ∀ {ns : List String} {acc r : Finset String},
      ancestors_all_aux G ns acc = .ok r → ∀ n ∈ ns, n ∈ G.nodes := by
  intro ns
  induction ns with
  | nil =>
    intro acc r _ n hn
    exact absurd hn (List.not_mem_nil n)
  | cons m rest ih =>
    intro acc r h n hn
    unfold ancestors_all_aux at h
    cases hm : nxAncestors G m with
    | error e =>
      rw [hm] at h
      exact Except.noConfusion h
    | ok a =>
      rw [hm] at h
      rcases List.mem_cons.mp hn with h1 | h1
      · subst h1
        by_cases hmem : n ∈ G.nodes
        · exact hmem
        · unfold nxAncestors at hm
          rw [if_neg hmem] at hm
          exact Except.noConfusion hm
      · exact ih h n h1

theorem ancestors_all_aux_eq (G : DiGraph) :
    ∀ (ns : List String) (acc : Finset String), (∀ n ∈ ns, n ∈ G.nodes) →
      ancestors_all_aux G ns acc = .ok (acc ∪ ns.toFinset.biUnion (ancSet G)) := by
  intro ns
  induction ns with
  | nil =>
    intro acc _
    simp [ancestors_all_aux]
  | cons m rest ih =>
    intro acc h
    have hm : m ∈ G.nodes := h m (List.mem_cons_self m rest)
    have hrest := ih (acc ∪ ancSet G m) (fun n hn => h n (List.mem_cons_of_mem m hn))
    simp only [ancestors_all_aux, nxAncestors_pos hm]
    rw [hrest]
    congr 1
    rw [List.toFinset_cons, Finset.biUnion_insert, Finset.union_assoc]

theorem ancestors_all_eq (G : DiGraph) (ns : List String)
    (h : ∀ n ∈ ns, n ∈ G.nodes) :
    ancestors_all G ns = .ok (ns.toFinset.biUnion (ancSet G) ∪ ns.toFinset) := by
  unfold ancestors_all
  rw [ancestors_all_aux_eq G ns ∅ h]
  simp

theorem ancestors_all_ok_nodes {G : DiGraph} {ns : List String} {a : Finset String}
    (h : ancestors_all G ns = .ok a) : ∀ n ∈ ns, n ∈ G.nodes := by
  unfold ancestors_all at h
  cases haux : ancestors_all_aux G ns ∅ with
  | error e =>
    rw [haux] at h
    exact Except.noConfusion h
  | ok acc => exact ancestors_all_aux_ok_nodes haux

theorem ancestors_all_ok_superset {G : DiGraph} {ns : List String} {a : Finset String}
    (h : ancestors_all G ns = .ok a) : ns.toFinset ⊆ a := by
  have hn := ancestors_all_ok_nodes h
  rw [ancestors_all_eq G ns hn] at h
  have ha : a = ns.toFinset.biUnion (ancSet G) ∪ ns.toFinset := by
    injection h with h2
    exact h2.symm
  rw [ha]
  exact Finset.subset_union_right

theorem pyRemove_ok {S r : Finset String} {x : String} (h : pyRemove S x = .ok r) :
    r = S.erase x := by
  unfold pyRemove at h
  split at h
  · injection h with h2
    exact h2.symm
  · exact Except.noConfusion h

theorem mem_subgraphD_nodes (G : DiGraph) (S : Finset String) (x : String) :
    x ∈ (subgraphD G S).nodes ↔ x ∈ G.nodes ∧ x ∈ S := by
  simp [subgraphD, List.mem_filter]

theorem backdoor_graph_ok_nodes {G : DiGraph} {t y : String} {G3 : DiGraph}
    (h : backdoor_graph G t y = .ok G3) : G3.nodes = G.nodes := by
  unfold backdoor_graph at h
  dsimp only at h
  split at h
  · injection h with h2
    rw [← h2]
  · exact Except.noConfusion h

theorem moral_graph_nodes (G : DiGraph) : (moral_graph G).nodes = G.nodes := rfl

theorem subset_addNode (l : List String) (x : String) : l ⊆ addNode l x := by
  unfold addNode
  split
  · exact List.Subset.refl l
  · exact List.subset_append_left l [x]

theorem subset_addEdgeU_nodes (H : UGraph) (a b : String) :
    H.nodes ⊆ (addEdgeU H a b).nodes :=
  (subset_addNode H.nodes a).trans (subset_addNode (addNode H.nodes a) b)

theorem subset_foldl_addEdge (t y : String) :
    ∀ (L : List String) (H : UGraph),
      H.nodes ⊆ (L.foldl (fun H l => addEdgeU (addEdgeU H t l) l y) H).nodes := by
  intro L
  induction L with
  | nil => intro H; exact List.Subset.refl _
  | cons l rest ih =>
    intro H
    exact ((subset_addEdgeU_nodes H t l).trans
      (subset_addEdgeU_nodes (addEdgeU H t l) l y)).trans (ih _)

end Optimaladj

namespace Optimaladj

theorem build_H0_ok_parts {G : DiGraph} {t y : String} {L : List String} {H0 : UGraph}
    (h : build_H0 G t y L = .ok H0) :
    ∃ a G3, ancestors_all G (L ++ [t, y]) = .ok a ∧
      backdoor_graph (subgraphD G a) t y = .ok G3 ∧ H0 = moral_graph G3 := by
  unfold build_H0 at h
  split at h
  · exact Except.noConfusion h
  · rename_i a hanc
    split at h
    · exact Except.noConfusion h
    · rename_i G3 hbd
      exact ⟨a, G3, hanc, hbd, (Except.ok.inj h).symm⟩

theorem build_H1_ok_parts {G : DiGraph} {t y : String} {L N : List String} {H1 : UGraph}
    (h : build_H1 G t y L N = .ok H1) :
    ∃ H0 I, build_H0 G t y L = .ok H0 ∧ ignore G t y L N = .ok I ∧
      H1 = L.foldl (fun H l => addEdgeU (addEdgeU H t l) l y)
        ⟨(subgraphU H0 (H0.nodes.toFinset \ I)).nodes,
          (subgraphU H0 (H0.nodes.toFinset \ I)).edges ++
            shortcutEdges H0 I (subgraphU H0 (H0.nodes.toFinset \ I))⟩ := by
  unfold build_H1 at h
  split at h
  · exact Except.noConfusion h
  · rename_i H0 hH0
    split at h
    · exact Except.noConfusion h
    · rename_i I hI
      exact ⟨H0, I, hH0, hI, (Except.ok.inj h).symm⟩

theorem ignore_ok_parts {G : DiGraph} {t y : String} {L N : List String} {I : Finset String}
    (h : ignore G t y L N = .ok I) :
    ∃ a f, ancestors_all G (L ++ [t, y]) = .ok a ∧ forbidden G t y = .ok f ∧
      I = ((a.erase t).erase y) ∩ ((G.nodes.toFinset \ N.toFinset) ∪ f) := by
  unfold ignore at h
  split at h
  · exact Except.noConfusion h
  · rename_i a hanc
    split at h
    · exact Except.noConfusion h
    · rename_i s1a hr1
      split at h
      · exact Except.noConfusion h
      · rename_i s1 hr2
        split at h
        · exact Except.noConfusion h
        · rename_i f hf
          refine ⟨a, f, hanc, hf, ?_⟩
          have h1 := pyRemove_ok hr1
          have h2 := pyRemove_ok hr2
          rw [← Except.ok.inj h, h2, h1]

/-- C9: for every finite collection of nodes all present in the graph,
`ancestors_all` returns the union of each node's strict ancestors together
with the collection itself; in particular every graph node `n` is a member of
`ancestors_all([n])`. -/
theorem C9_ancestors_all_union (G : DiGraph) (ns : List String)
    (h : ∀ n ∈ ns, n ∈ G.nodes) :
    ancestors_all G ns = .ok (ns.toFinset.biUnion (ancSet G) ∪ ns.toFinset) ∧
    ∀ n, n ∈ G.nodes → ∃ A, ancestors_all G [n] = .ok A ∧ n ∈ A := by
  refine ⟨ancestors_all_eq G ns h, ?_⟩
  intro n hn
  refine ⟨[n].toFinset.biUnion (ancSet G) ∪ [n].toFinset, ?_, ?_⟩
  · exact ancestors_all_eq G [n] (by simpa using hn)
  · refine Finset.mem_union_right _ ?_
    simp

/-- Witness for C9: the ancestral closure of `[T, Y]` in the confounded
triangle. -/
theorem C9_witness :
    ancestors_all Gconf ["T", "Y"] =
        .ok ((["T", "Y"] : List String).toFinset.biUnion (ancSet Gconf) ∪
          (["T", "Y"] : List String).toFinset) ∧
      ∀ n, n ∈ Gconf.nodes → ∃ A, ancestors_all Gconf [n] = .ok A ∧ n ∈ A :=
  C9_ancestors_all_union Gconf ["T", "Y"] (by decide)

/-- C10: whenever `build_H1` returns a graph, the ignore set contains neither
the treatment nor the outcome, and both are nodes of the returned H1, so the
downstream boundary, component and cut queries are applied to present
nodes. -/
theorem C10_build_H1_endpoints (G : DiGraph) (t y : String) (L N : List String)
    (H1 : UGraph) (h : build_H1 G t y L N = .ok H1) :
    ∃ I, ignore G t y L N = .ok I ∧ t ∉ I ∧ y ∉ I ∧ t ∈ H1.nodes ∧ y ∈ H1.nodes := by
  obtain ⟨H0, I, hH0, hI, hH1⟩ := build_H1_ok_parts h
  obtain ⟨a, f, hanc, hf, hIeq⟩ := ignore_ok_parts hI
  obtain ⟨a2, G3, hanc2, hbd, hH0eq⟩ := build_H0_ok_parts hH0
  have ha2 : a = a2 := by
    rw [hanc] at hanc2
    exact Except.ok.inj hanc2
  subst ha2
  have htI : t ∉ I := by
    rw [hIeq]
    intro hmem
    have h2 := (Finset.mem_inter.mp hmem).1
    exact (Finset.mem_erase.mp (Finset.mem_erase.mp h2).2).1 rfl
  have hyI : y ∉ I := by
    rw [hIeq]
    intro hmem
    have h2 := (Finset.mem_inter.mp hmem).1
    exact (Finset.mem_erase.mp h2).1 rfl
  have htG : t ∈ G.nodes := ancestors_all_ok_nodes hanc t (by simp)
  have hyG : y ∈ G.nodes := ancestors_all_ok_nodes hanc y (by simp)
  have hta : t ∈ a := ancestors_all_ok_superset hanc (by simp)
  have hya : y ∈ a := ancestors_all_ok_superset hanc (by simp)
  have hH0n : H0.nodes = (subgraphD G a).nodes := by
    rw [hH0eq, moral_graph_nodes, backdoor_graph_ok_nodes hbd]
  have htH0 : t ∈ H0.nodes := by
    rw [hH0n]
    exact (mem_subgraphD_nodes G a t).mpr ⟨htG, hta⟩
  have hyH0 : y ∈ H0.nodes := by
    rw [hH0n]
    exact (mem_subgraphD_nodes G a y).mpr ⟨hyG, hya⟩
  have hmemH1 : ∀ x, x ∈ H0.nodes → x ∉ I → x ∈ H1.nodes := by
    intro x hx hxI
    rw [hH1]
    refine subset_foldl_addEdge t y L _ ?_
    show x ∈ (subgraphU H0 (H0.nodes.toFinset \ I)).nodes
    exact (mem_subgraphU_nodes H0 _ x).mpr
      ⟨hx, Finset.mem_sdiff.mpr ⟨List.mem_toFinset.mpr hx, hxI⟩⟩
  exact ⟨I, hI, htI, hyI, hmemH1 t htH0 htI, hmemH1 y hyH0 hyI⟩

/-- Witness for C10: the successful `build_H1` call on the confounded
triangle. -/
theorem C10_witness :
    ∃ I, ignore Gconf "T" "Y" [] [] = .ok I ∧ "T" ∉ I ∧ "Y" ∉ I ∧
      "T" ∈ H1conf.nodes ∧ "Y" ∈ H1conf.nodes :=
  C10_build_H1_endpoints Gconf "T" "Y" [] [] H1conf (by decide)

end Optimaladj

namespace Optimaladj

/-- C1: at the query (treatment T, outcome Y, L = [], N = [A]) on `Gcond`, the
set `N` is neither the full node set nor contained in the ancestral closure
{T, Y}, and `optimal_adj_set` returns the condition message as a plain string
value instead of failing with a `ConditionException` (no such exception class
exists in the module). -/
theorem C1_optimal_adj_set_returns_message :
    optimal_adj_set Gcond "T" "Y" [] ["A"] = .msg conditionMessage ∧
      (["A"] : List String).toFinset ≠ Gcond.nodes.toFinset ∧
      ancestors_all Gcond ["T", "Y"] = .ok {"T", "Y"} ∧
      ¬ (["A"] : List String).toFinset ⊆ ({"T", "Y"} : Finset String) :=
  ⟨by decide, by decide, by decide, by decide⟩

/-- C2: on `Gconf` with N = [] no valid back-door adjustment set exists
(every candidate must be inside N = ∅, and ∅ leaves the back-door path
T←C→Y open), yet none of the three methods fails with a `NoAdjException`:
`optimal_adj_set` returns {T}, `optimal_minimal_adj_set` raises `KeyError`,
and `optimal_minimum_adj_set` returns {T} as well — with T and Y adjacent in
H1 the minimum node cut is the empty set, so `isInMinimum` compares 0 with 0
and accepts the treatment itself. -/
theorem C2_no_adj_exception_not_raised :
    optimal_adj_set Gconf "T" "Y" [] [] = .ok {"T"} ∧
      optimal_minimal_adj_set Gconf "T" "Y" [] [] = .err .keyError ∧
      optimal_minimum_adj_set Gconf "T" "Y" [] [] = .ok {"T"} ∧
      ∀ Z : Finset String, validAdjSet Gconf "T" "Y" [] [] Z = false := by
  refine ⟨by decide, by decide, by decide, ?_⟩
  intro Z
  by_cases hZ : Z = ∅
  · subst hZ
    decide
  · have h1 : decide (Z ⊆ (([] : List String)).toFinset) = false := by
      rw [decide_eq_false_iff_not]
      intro hsub
      apply hZ
      rw [← Finset.subset_empty]
      simpa using hsub
    unfold validAdjSet
    rw [h1]
    simp

/-- C3: on the graph with no directed path from T to Y, `causal_vertices`
raises `KeyError` (`set.remove` of the treatment from the empty union)
instead of returning the empty set, and `forbidden` propagates the same
failure instead of returning {T}. -/
theorem C3_causal_vertices_keyerror :
    causal_vertices Gnopath "T" "Y" = .error .keyError ∧
      forbidden Gnopath "T" "Y" = .error .keyError :=
  ⟨by decide, by decide⟩

/-- C4: with multi-character node names, the code's `forbidden` unions the
characters of each causal vertex and of the treatment (`set.union` of a
string iterates it), returning the single-character strings T, Y, 1 rather
than the whole identifiers of the spec-modelled forbidden set {T1, Y1}. -/
theorem C4_forbidden_character_union :
    forbidden Gmulti "T1" "Y1" = .ok {"T", "Y", "1"} ∧
      forbiddenSpec Gmulti "T1" "Y1" = {"T1", "Y1"} ∧
      ({"T", "Y", "1"} : Finset String) ≠ {"T1", "Y1"} :=
  ⟨by decide, by decide, by decide⟩

/-- C5: on `Gmulti` with N the full node set (the precondition holds) and the
valid adjustment set {C1} available, `optimal_adj_set` returns ∅ — the
boundary of the outcome string's characters, none of which is a node — rather
than the node boundary of {Y1} in H1, which is {C1}. -/
theorem C5_optimal_adj_set_boundary_mismatch :
    optimal_adj_set Gmulti "T1" "Y1" [] ["C1", "T1", "Y1"] = .ok ∅ ∧
      build_H1 Gmulti "T1" "Y1" [] ["C1", "T1", "Y1"] = .ok H1multi ∧
      nodeBoundary H1multi {"Y1"} = {"C1"} ∧
      validAdjSet Gmulti "T1" "Y1" [] ["C1", "T1", "Y1"] {"C1"} = true :=
  ⟨by decide, by decide, by decide, by decide⟩

/-- C7: on `Gmulti` with N the full node set and a valid adjustment set
available, `optimal_minimum_adj_set` and `optimal_minimal_adj_set` both
return {C1} (cardinality 1) while `optimal_adj_set` returns ∅ (cardinality
0), violating the claimed chain |minimum| ≤ |minimal| ≤ |optimal|. -/
theorem C7_cardinality_chain_violated :
    optimal_minimum_adj_set Gmulti "T1" "Y1" [] ["C1", "T1", "Y1"] = .ok {"C1"} ∧
      optimal_minimal_adj_set Gmulti "T1" "Y1" [] ["C1", "T1", "Y1"] = .ok {"C1"} ∧
      optimal_adj_set Gmulti "T1" "Y1" [] ["C1", "T1", "Y1"] = .ok ∅ ∧
      (["C1", "T1", "Y1"] : List String).toFinset = Gmulti.nodes.toFinset ∧
      validAdjSet Gmulti "T1" "Y1" [] ["C1", "T1", "Y1"] {"C1"} = true :=
  ⟨by decide, by decide, by decide, by decide, by decide⟩

end Optimaladj
